import Mathlib

/-!
Verification development for `create_vcf_from_inca_csv.py`.

The script reads a CSV of variant-classification records, normalizes two
string columns, drops rows with a missing `date_last_evaluated`, groups rows
by `(chromosome, start, reference_allele, alternate_allele)`, picks the
latest record per group (`idxmax` on the date column: the first row attaining
the maximal date), summarizes all classifications of the group
(`value_counts`: counts per label, stably sorted by descending count, labels
in first-occurrence order), aggregates the distinct non-missing `hgvsc`
values, sorts the aggregated rows by the categorical chromosome order
`1..22, X, Y` (unknown chromosomes become `NaN`, sorted last, printed `nan`)
then by `start`, and writes a VCF file.

The embedding below models rows after the `dropna(subset=['date_last_evaluated'])`
step, so every record carries a date.  Dates are modelled as ordinals
(`Nat`); the `%Y-%m-%d` rendering is abstracted by an injective formatter.
`hgvsc` is the one field whose missingness (`NaN`) the script inspects, so it
is modelled as `Option String`.  pandas sorts (`groupby(sort=True)`,
`value_counts`, `sort_values` on several columns) are stable; they are
modelled with `List.insertionSort`, which is stable, over explicit
comparators.  Python strings compare lexicographically by code point, which
`charListLt` implements on `String.data`.
-/

set_option maxHeartbeats 1000000

namespace IncaVcf

/-- One row of the input CSV, after date parsing and the date `dropna`. -/
structure VariantRecord where
  chromosome : String
  start : Int
  reference_allele : String
  alternate_allele : String
  hgvsc : Option String
  oncogenicity_classification : String
  date_last_evaluated : Nat
  specimen_id : String
deriving DecidableEq

/-- `str.replace` for a single-character pattern, at the char-list level:
every occurrence of `c` is substituted by `repl`. -/
def replaceChar (c : Char) (repl : List Char) : List Char → List Char
  | [] => []
  | a :: as => if a = c then repl ++ replaceChar c repl as else a :: replaceChar c repl as

/-- Lines 50-51 of the script: spaces in the classification become
underscores (`.str.replace(' ', '_')`), spaces in the chromosome are removed
(`.str.replace(' ', '')`). -/
def normalizeRecord (r : VariantRecord) : VariantRecord :=
  { r with
    oncogenicity_classification :=
      ⟨replaceChar ' ' ['_'] r.oncogenicity_classification.data⟩
    chromosome := ⟨replaceChar ' ' [] r.chromosome.data⟩ }

/-- The groupby key of line 57. -/
abbrev VKey := String × Int × String × String

def variantKey (r : VariantRecord) : VKey :=
  (r.chromosome, r.start, r.reference_allele, r.alternate_allele)

/-- Distinct elements of a list in order of first occurrence (the order in
which pandas hash tables report unique values). -/
def fsdAux {α : Type} [DecidableEq α] (seen : List α) : List α → List α
  | [] => []
  | a :: as => if a ∈ seen then fsdAux seen as else a :: fsdAux (a :: seen) as

def firstSeenDedup {α : Type} [DecidableEq α] (l : List α) : List α :=
  fsdAux [] l

/-- Strict lexicographic comparison of char lists by code point: the order of
Python strings. -/
def charListLt : List Char → List Char → Bool
  | [], [] => false
  | [], _ :: _ => true
  | _ :: _, [] => false
  | a :: as, b :: bs =>
    if a < b then true
    else if b < a then false
    else charListLt as bs

def strLt (s t : String) : Bool := charListLt s.data t.data

/-- Non-strict string comparison derived from `strLt`. -/
def strLe (s t : String) : Bool := !(strLt t s)

/-- Lexicographic combination of a strict comparator on the first component
with a non-strict comparator on the second. -/
def lexLe {α β : Type} (slt : α → α → Bool) (tle : β → β → Bool) (p q : α × β) : Bool :=
  if slt p.1 q.1 then true
  else if slt q.1 p.1 then false
  else tle p.2 q.2

def intLtB (i j : Int) : Bool := decide (i < j)

def intLeB (i j : Int) : Bool := decide (i ≤ j)

def natLtB (m n : Nat) : Bool := decide (m < n)

/-- Comparator over groupby keys: lexicographic over the four components,
ascending — the order in which `df.groupby([...], sort=True)` yields groups. -/
def keyLEb : VKey → VKey → Bool :=
  lexLe strLt (lexLe intLtB (lexLe strLt strLe))

def keyR (a b : VKey) : Prop := keyLEb a b = true

instance : DecidableRel keyR := fun a b => instDecidableEqBool _ _

/-- Keys of `df.groupby(['chromosome','start','reference_allele','alternate_allele'])`,
in the (ascending, deduplicated) order the loop of line 71 visits them. -/
def groupKeys (nl : List VariantRecord) : List VKey :=
  List.insertionSort keyR (firstSeenDedup (nl.map variantKey))

/-- The groups of line 57: each key paired with its rows, in input order. -/
def pipelineGroups (l : List VariantRecord) : List (VKey × List VariantRecord) :=
  let nl := l.map normalizeRecord
  (groupKeys nl).map (fun k => (k, nl.filter (fun r => decide (variantKey r = k))))

/-- The running fold of `idxmax`: the current best row is replaced only by a
strictly later one, so the first row attaining the maximum wins. -/
def pickLatest (r : VariantRecord) (rs : List VariantRecord) : VariantRecord :=
  rs.foldl
    (fun acc s => if acc.date_last_evaluated < s.date_last_evaluated then s else acc) r

/-- Lines 60-67: `idxmax` on the date column returns the first row attaining
the maximal `date_last_evaluated`; `.loc` then yields that row. -/
def get_latest_entry : List VariantRecord → Option VariantRecord
  | [] => none
  | r :: rs => some (pickLatest r rs)

/-- The (label, count) pairs underlying `Series.value_counts`, before the
sort: distinct labels in first-occurrence order with their multiplicities. -/
def countPairs (l : List String) : List (String × Nat) :=
  (firstSeenDedup l).map (fun c => (c, l.count c))

/-- Descending-count comparator used by the stable `value_counts` sort. -/
def countGE (p q : String × Nat) : Prop := q.2 ≤ p.2

instance : DecidableRel countGE := fun p q => Nat.decLe q.2 p.2

/-- `Series.value_counts()`: counts per distinct label, stably sorted by
descending count (ties therefore stay in first-occurrence order). -/
def value_counts (l : List String) : List (String × Nat) :=
  List.insertionSort countGE (countPairs l)

/-- Lines 6-13 of the script. -/
def format_total_classifications (l : List String) : String :=
  String.intercalate "|"
    ((value_counts l).map (fun p => p.1 ++ "(" ++ toString p.2 ++ ")"))

/-- Lines 16-22 of the script: `hgvs_series.dropna().unique()` joined by bars. -/
def aggregate_hgvs (l : List (Option String)) : String :=
  String.intercalate "|" (firstSeenDedup (l.filterMap id))

/-- One element of `aggregated_data` (lines 79-89). -/
structure AggRow where
  chromosome : String
  start : Int
  reference_allele : String
  alternate_allele : String
  latest_classification : String
  latest_date : Nat
  latest_sample_id : String
  total_classifications : String
  hgvs : String
deriving DecidableEq

/-- The loop body of lines 71-89 for one group. -/
def aggregateGroup (g : List VariantRecord) : Option AggRow :=
  (get_latest_entry g).map (fun lat =>
    { chromosome := lat.chromosome
      start := lat.start
      reference_allele := lat.reference_allele
      alternate_allele := lat.alternate_allele
      latest_classification := lat.oncogenicity_classification
      latest_date := lat.date_last_evaluated
      latest_sample_id := lat.specimen_id
      total_classifications :=
        format_total_classifications (g.map (·.oncogenicity_classification))
      hgvs := aggregate_hgvs (g.map (·.hgvsc)) })

/-- Lines 70-91: the aggregated rows, one per group, in group-key order. -/
def aggregated_data (l : List VariantRecord) : List AggRow :=
  (pipelineGroups l).filterMap (fun kg => aggregateGroup kg.2)

/-- Line 100 of the script. -/
def chromosome_order : List String :=
  (List.range 22).map (fun i => toString (i + 1)) ++ ["X", "Y"]

/-- Index of the first occurrence of `c` in a list of category names. -/
def idxInList (c : String) : List String → Option Nat
  | [] => none
  | x :: xs => if x = c then some 0 else (idxInList c xs).map (· + 1)

/-- Position of a chromosome in the categorical order (its category code);
`none` is pandas `NaN` for values outside the category list (line 102). -/
def chromRank? (c : String) : Option Nat :=
  idxInList c chromosome_order

/-- Sort rank: categorical code, with `NaN` (`none`) placed after every
category (`sort_values` defaults to `na_position='last'`). -/
def chromRank (c : String) : Nat :=
  (chromRank? c).getD 24

/-- The pair of values `sort_values(by=['chromosome', 'start'])` orders a row
by: categorical chromosome rank, then start position. -/
def rowSortKey (r : AggRow) : Nat × Int :=
  (chromRank r.chromosome, r.start)

/-- Comparator of `sort_values(by=['chromosome', 'start'])` (line 104):
categorical chromosome rank, then start; the lexsort used for a multi-column
`by` is stable. -/
def rowLEb (a b : AggRow) : Bool :=
  lexLe natLtB intLeB (rowSortKey a) (rowSortKey b)

def rowR (a b : AggRow) : Prop := rowLEb a b = true

instance : DecidableRel rowR := fun a b => instDecidableEqBool _ _

def sortRows (rows : List AggRow) : List AggRow :=
  List.insertionSort rowR rows

/-- The fully sorted aggregated table the writer loop iterates over. -/
def vcfRows (l : List VariantRecord) : List AggRow :=
  sortRows (aggregated_data l)

/-- Printing a Categorical cell: a category prints itself, `NaN` prints `nan`. -/
def renderChrom (c : String) : String :=
  match chromRank? c with
  | some _ => c
  | none => "nan"

/-- Abstraction of `strftime('%Y-%m-%d')` on the ordinal date model; its only
property used anywhere is injectivity, which `toString` on `Nat` has. -/
def formatDate (d : Nat) : String := toString d

/-- Lines 122-128: the INFO column. -/
def info_field (r : AggRow) : String :=
  "LC=" ++ r.latest_classification ++
  ";LCD=" ++ formatDate r.latest_date ++
  ";LCS=" ++ r.latest_sample_id ++
  ";TC=" ++ r.total_classifications ++
  ";HGVS=" ++ r.hgvs

/-- The eight tab-separated columns of one body line (lines 129-132).  The ID,
QUAL and FILTER columns are the literal dot. -/
def bodyCols (r : AggRow) : List String :=
  [renderChrom r.chromosome, toString r.start, ".", r.reference_allele,
   r.alternate_allele, ".", ".", info_field r]

def bodyLine (r : AggRow) : String :=
  String.intercalate "\t" (bodyCols r)

/-- Lines 110-118: the fixed header. -/
def headerLines : List String :=
  ["##fileformat=VCFv4.2",
   "##source=EG",
   "##reference=GRCh38",
   "##INFO=<ID=LC,Number=1,Type=String,Description=\"Latest classification\">",
   "##INFO=<ID=LCD,Number=1,Type=String,Description=\"Latest classification date\">",
   "##INFO=<ID=LCS,Number=1,Type=String,Description=\"Latest classification sample ID\">",
   "##INFO=<ID=TC,Number=.,Type=String,Description=\"Total classifications with counts (including latest)\">",
   "##INFO=<ID=HGVS,Number=.,Type=String,Description=\"HGVS annotations\">",
   "#CHROM\tPOS\tID\tREF\tALT\tQUAL\tFILTER\tINFO"]

def vcfBody (l : List VariantRecord) : List String :=
  (vcfRows l).map bodyLine

/-- The lines of the written VCF file, in order. -/
def vcfOutput (l : List VariantRecord) : List String :=
  headerLines ++ vcfBody l

/-- The variant-identifying columns of an output row. -/
def rowKeyCols (row : AggRow) : VKey :=
  (row.chromosome, row.start, row.reference_allele, row.alternate_allele)

/-- The row-sort comparator evaluated on the variant-identifying columns. -/
def keyColsLe (a b : VKey) : Bool :=
  lexLe natLtB intLeB (chromRank a.1, a.2.1) (chromRank b.1, b.2.1)

def keyColsR (a b : VKey) : Prop := keyColsLe a b = true

instance : DecidableRel keyColsR := fun a b => instDecidableEqBool _ _

/-! Concrete records used to instantiate the theorems. -/

def c1recA : VariantRecord :=
  ⟨"7", 100, "A", "T", some "NM_1:c.1A>T", "VUS", 5, "S1"⟩

def c1recB : VariantRecord :=
  ⟨"7", 100, "A", "T", none, "Pathogenic", 5, "S2"⟩

def rec7a : VariantRecord :=
  ⟨"7", 100, "A", "T", some "NM_1:c.1A>T", "VUS", 5, "S1"⟩

def rec7b : VariantRecord :=
  ⟨"7", 100, "A", "T", none, "Likely Benign", 9, "S2"⟩

def rec7bN : VariantRecord :=
  ⟨"7", 100, "A", "T", none, "Likely_Benign", 9, "S2"⟩

def c5vus1 : VariantRecord := ⟨"2", 50, "G", "C", none, "VUS", 1, "P1"⟩

def c5vus2 : VariantRecord := ⟨"2", 50, "G", "C", none, "VUS", 1, "P2"⟩

def c5path : VariantRecord := ⟨"2", 50, "G", "C", none, "Pathogenic", 2, "P3"⟩

def c8rec : VariantRecord := ⟨"3", 7, "T", "G", none, "VUS", 4, "Q1"⟩

def recMT : VariantRecord := ⟨"MT", 5, "G", "C", none, "Benign", 3, "S3"⟩

def rec1 : VariantRecord := ⟨"1", 10, "C", "A", none, "VUS", 2, "S4"⟩

def c4a : VariantRecord := ⟨"5", 20, "A", "G", none, "VUS", 7, "X1"⟩

def c4b : VariantRecord := ⟨"5", 20, "A", "G", none, "VUS", 7, "X2"⟩

/-! ### Properties of `fsdAux` / `firstSeenDedup` -/

theorem mem_fsdAux {α : Type} [DecidableEq α] {x : α} (l : List α) :
    ∀ seen, x ∈ fsdAux seen l ↔ x ∈ l ∧ x ∉ seen := by
  induction l with
  | nil => intro seen; simp [fsdAux]
  | cons a as ih =>
    intro seen
    by_cases h : a ∈ seen
    · rw [fsdAux, if_pos h, ih seen]
      constructor
      · rintro ⟨hx, hns⟩
        exact ⟨List.mem_cons_of_mem _ hx, hns⟩
      · rintro ⟨hx, hns⟩
        rcases List.mem_cons.mp hx with rfl | hx
        · exact absurd h hns
        · exact ⟨hx, hns⟩
    · rw [fsdAux, if_neg h]
      constructor
      · intro hx
        rcases List.mem_cons.mp hx with rfl | hx
        · exact ⟨List.mem_cons_self _ _, h⟩
        · rw [ih (a :: seen)] at hx
          obtain ⟨h1, h2⟩ := hx
          exact ⟨List.mem_cons_of_mem _ h1, fun hc => h2 (List.mem_cons_of_mem _ hc)⟩
      · rintro ⟨hx, hns⟩
        rcases List.mem_cons.mp hx with rfl | hx
        · exact List.mem_cons_self _ _
        · by_cases hxa : x = a
          · subst hxa; exact List.mem_cons_self _ _
          · refine List.mem_cons_of_mem _ ?_
            rw [ih (a :: seen)]
            exact ⟨hx, fun hc => (List.mem_cons.mp hc).elim hxa hns⟩

theorem mem_firstSeenDedup {α : Type} [DecidableEq α] {x : α} {l : List α} :
    x ∈ firstSeenDedup l ↔ x ∈ l := by
  rw [firstSeenDedup, mem_fsdAux]
  simp

theorem nodup_fsdAux {α : Type} [DecidableEq α] (l : List α) :
    ∀ seen, (fsdAux seen l).Nodup := by
  induction l with
  | nil => intro seen; simp [fsdAux]
  | cons a as ih =>
    intro seen
    by_cases h : a ∈ seen
    · rw [fsdAux, if_pos h]; exact ih seen
    · rw [fsdAux, if_neg h]
      refine List.nodup_cons.mpr ⟨fun hmem => ?_, ih (a :: seen)⟩
      rw [mem_fsdAux] at hmem
      exact hmem.2 (List.mem_cons_self a seen)

theorem nodup_firstSeenDedup {α : Type} [DecidableEq α] (l : List α) :
    (firstSeenDedup l).Nodup :=
  nodup_fsdAux l []

/-- `fsdAux` lists elements in order of first occurrence: a lower first index
in the source list means an earlier position in the deduplicated list. -/
theorem pair_sublist_fsdAux {α : Type} [DecidableEq α] {x y : α} (l : List α) :
    ∀ seen, x ∈ l → y ∈ l → x ∉ seen → y ∉ seen → x ≠ y →
      l.indexOf x < l.indexOf y → List.Sublist [x, y] (fsdAux seen l) := by
  induction l with
  | nil => intro seen hx; cases hx
  | cons a as ih =>
    intro seen hx hy hxs hys hxy hlt
    by_cases h : a ∈ seen
    · have hxa : x ≠ a := fun hc => hxs (hc ▸ h)
      have hya : y ≠ a := fun hc => hys (hc ▸ h)
      rw [fsdAux, if_pos h]
      refine ih seen ((List.mem_cons.mp hx).resolve_left hxa)
        ((List.mem_cons.mp hy).resolve_left hya) hxs hys hxy ?_
      rwa [List.indexOf_cons_ne _ (Ne.symm hxa), List.indexOf_cons_ne _ (Ne.symm hya),
        Nat.succ_lt_succ_iff] at hlt
    · rw [fsdAux, if_neg h]
      by_cases hya : y = a
      · subst hya
        rw [List.indexOf_cons_self] at hlt
        exact absurd hlt (Nat.not_lt_zero _)
      · by_cases hxa : x = a
        · subst hxa
          have hy' : y ∈ as := (List.mem_cons.mp hy).resolve_left hya
          have : y ∈ fsdAux (x :: seen) as := by
            rw [mem_fsdAux]
            exact ⟨hy', fun hc => (List.mem_cons.mp hc).elim (fun e => hxy e.symm) hys⟩
          exact (List.singleton_sublist.mpr this).cons₂ x
        · have hx' : x ∈ as := (List.mem_cons.mp hx).resolve_left hxa
          have hy' : y ∈ as := (List.mem_cons.mp hy).resolve_left hya
          refine (ih (a :: seen) hx' hy'
            (fun hc => (List.mem_cons.mp hc).elim hxa hxs)
            (fun hc => (List.mem_cons.mp hc).elim hya hys) hxy ?_).cons a
          rwa [List.indexOf_cons_ne _ (Ne.symm hxa), List.indexOf_cons_ne _ (Ne.symm hya),
            Nat.succ_lt_succ_iff] at hlt

/-! ### Order properties of the comparators -/

theorem charListLt_irrefl : ∀ x, charListLt x x = false := by
  intro x
  induction x with
  | nil => rfl
  | cons a as ih => simp [charListLt, ih]

theorem charListLt_trans :
    ∀ x y z, charListLt x y = true → charListLt y z = true → charListLt x z = true := by
  intro x
  induction x with
  | nil =>
    intro y z hxy hyz
    cases y with
    | nil => simp [charListLt] at hxy
    | cons b bs =>
      cases z with
      | nil => simp [charListLt] at hyz
      | cons c cs => rfl
  | cons a as ih =>
    intro y z hxy hyz
    cases y with
    | nil => simp [charListLt] at hxy
    | cons b bs =>
      cases z with
      | nil => simp [charListLt] at hyz
      | cons c cs =>
        simp only [charListLt] at hxy hyz ⊢
        by_cases hab : a < b
        · by_cases hbc : b < c
          · rw [if_pos (lt_trans hab hbc)]
          · by_cases hcb : c < b
            · rw [if_neg hbc, if_pos hcb] at hyz
              exact absurd hyz (by simp)
            · have : b = c := le_antisymm (le_of_not_lt hcb) (le_of_not_lt hbc)
              subst this
              rw [if_pos hab]
        · by_cases hba : b < a
          · rw [if_neg hab, if_pos hba] at hxy
            exact absurd hxy (by simp)
          · have : a = b := le_antisymm (le_of_not_lt hba) (le_of_not_lt hab)
            subst this
            rw [if_neg hab, if_neg hba] at hxy
            by_cases hac : a < c
            · rw [if_pos hac]
            · by_cases hca : c < a
              · rw [if_neg hac, if_pos hca] at hyz
                exact absurd hyz (by simp)
              · rw [if_neg hac, if_neg hca] at hyz ⊢
                exact ih bs cs hxy hyz

theorem charListLt_conn :
    ∀ x y, charListLt x y = false → charListLt y x = false → x = y := by
  intro x
  induction x with
  | nil =>
    intro y hxy _
    cases y with
    | nil => rfl
    | cons b bs => simp [charListLt] at hxy
  | cons a as ih =>
    intro y hxy hyx
    cases y with
    | nil => simp [charListLt] at hyx
    | cons b bs =>
      simp only [charListLt] at hxy hyx
      by_cases hab : a < b
      · rw [if_pos hab] at hxy
        exact absurd hxy (by simp)
      · by_cases hba : b < a
        · rw [if_pos hba] at hyx
          exact absurd hyx (by simp)
        · have : a = b := le_antisymm (le_of_not_lt hba) (le_of_not_lt hab)
          subst this
          rw [if_neg hab, if_neg hab] at hxy hyx
          rw [ih bs hxy hyx]

theorem charListLt_asymm {x y : List Char} (h : charListLt x y = true) :
    charListLt y x = false := by
  cases hc : charListLt y x
  · rfl
  · have := charListLt_trans x y x h hc
    rw [charListLt_irrefl] at this
    exact absurd this (by simp)

theorem strLt_irrefl (s : String) : strLt s s = false :=
  charListLt_irrefl s.data

theorem strLt_trans {s t u : String} (h1 : strLt s t = true) (h2 : strLt t u = true) :
    strLt s u = true :=
  charListLt_trans s.data t.data u.data h1 h2

theorem strLt_conn {s t : String} (h1 : strLt s t = false) (h2 : strLt t s = false) :
    s = t := by
  have := charListLt_conn s.data t.data h1 h2
  cases s; cases t
  exact congrArg String.mk this

theorem strLe_trans {s t u : String} (h1 : strLe s t = true) (h2 : strLe t u = true) :
    strLe s u = true := by
  simp only [strLe, Bool.not_eq_true'] at h1 h2 ⊢
  cases hus : strLt u s
  · rfl
  · exfalso
    cases htu : strLt t u
    · have e : t = u := strLt_conn htu h2
      rw [e, hus] at h1
      exact absurd h1 (by simp)
    · rw [strLt_trans htu hus] at h1
      exact absurd h1 (by simp)

theorem strLe_total (s t : String) : strLe s t = true ∨ strLe t s = true := by
  simp only [strLe, Bool.not_eq_true']
  cases h : strLt t s
  · exact Or.inl rfl
  · exact Or.inr (charListLt_asymm h)

theorem strLe_antisymm {s t : String} (h1 : strLe s t = true) (h2 : strLe t s = true) :
    s = t := by
  simp only [strLe, Bool.not_eq_true'] at h1 h2
  exact strLt_conn h2 h1

/-! Generic facts about the lexicographic comparator combination. -/

theorem lexLe_trans {α β : Type} {slt : α → α → Bool} {tle : β → β → Bool}
    (htr : ∀ a b c, slt a b = true → slt b c = true → slt a c = true)
    (hconn : ∀ a b, slt a b = false → slt b a = false → a = b)
    (ttr : ∀ x y z, tle x y = true → tle y z = true → tle x z = true) :
    ∀ p q r, lexLe slt tle p q = true → lexLe slt tle q r = true →
      lexLe slt tle p r = true := by
  intro p q r hpq hqr
  simp only [lexLe] at hpq hqr ⊢
  cases h1 : slt p.1 q.1 <;> rw [h1] at hpq <;>
    cases h2 : slt q.1 r.1 <;> rw [h2] at hqr
  · -- first components of p,q and of q,r both incomparable strictly
    rw [if_neg Bool.false_ne_true] at hpq hqr
    cases h1r : slt q.1 p.1 <;> rw [h1r] at hpq
    · cases h2r : slt r.1 q.1 <;> rw [h2r] at hqr
      · rw [if_neg Bool.false_ne_true] at hpq hqr
        have e2 : q.1 = r.1 := hconn _ _ h2 h2r
        have g1 : slt p.1 r.1 = false := by rw [← e2]; exact h1
        have g2 : slt r.1 p.1 = false := by rw [← e2]; exact h1r
        rw [g1, g2, if_neg Bool.false_ne_true, if_neg Bool.false_ne_true]
        exact ttr _ _ _ hpq hqr
      · rw [if_pos rfl] at hqr
        exact absurd hqr (by simp)
    · rw [if_pos rfl] at hpq
      exact absurd hpq (by simp)
  · -- p.1 and q.1 incomparable, q.1 strictly below r.1
    rw [if_neg Bool.false_ne_true] at hpq
    cases h1r : slt q.1 p.1 <;> rw [h1r] at hpq
    · have e1 : p.1 = q.1 := hconn _ _ h1 h1r
      have g : slt p.1 r.1 = true := by rw [e1]; exact h2
      rw [g, if_pos rfl]
    · rw [if_pos rfl] at hpq
      exact absurd hpq (by simp)
  · -- p.1 strictly below q.1, q.1 and r.1 incomparable
    rw [if_neg Bool.false_ne_true] at hqr
    cases h2r : slt r.1 q.1 <;> rw [h2r] at hqr
    · have e2 : q.1 = r.1 := hconn _ _ h2 h2r
      have g : slt p.1 r.1 = true := by rw [← e2]; exact h1
      rw [g, if_pos rfl]
    · rw [if_pos rfl] at hqr
      exact absurd hqr (by simp)
  · rw [htr _ _ _ h1 h2, if_pos rfl]

theorem lexLe_total {α β : Type} {slt : α → α → Bool} {tle : β → β → Bool}
    (hconn : ∀ a b, slt a b = false → slt b a = false → a = b)
    (tt : ∀ x y, tle x y = true ∨ tle y x = true) :
    ∀ p q, lexLe slt tle p q = true ∨ lexLe slt tle q p = true := by
  intro p q
  simp only [lexLe]
  cases h1 : slt p.1 q.1
  · cases h2 : slt q.1 p.1
    · simp only [if_neg Bool.false_ne_true]
      exact tt p.2 q.2
    · right
      rw [if_pos rfl]
  · left
    rw [if_pos rfl]

theorem lexLe_antisymm {α β : Type} {slt : α → α → Bool} {tle : β → β → Bool}
    (hasym : ∀ a b, slt a b = true → slt b a = false)
    (hconn : ∀ a b, slt a b = false → slt b a = false → a = b)
    (ta : ∀ x y, tle x y = true → tle y x = true → x = y) :
    ∀ p q, lexLe slt tle p q = true → lexLe slt tle q p = true → p = q := by
  intro p q hpq hqp
  simp only [lexLe] at hpq hqp
  cases h1 : slt p.1 q.1 <;> rw [h1] at hpq hqp
  · rw [if_neg Bool.false_ne_true] at hpq hqp
    cases h2 : slt q.1 p.1 <;> rw [h2] at hpq hqp
    · rw [if_neg Bool.false_ne_true] at hpq hqp
      exact Prod.ext (hconn _ _ h1 h2) (ta _ _ hpq hqp)
    · rw [if_pos rfl] at hpq
      exact absurd hpq (by simp)
  · rw [if_pos rfl] at hqp
    cases h2 : slt q.1 p.1 <;> rw [h2] at hqp
    · rw [if_neg Bool.false_ne_true] at hqp
      exact absurd hqp (by simp)
    · rw [hasym _ _ h1] at h2
      exact absurd h2 (by simp)

theorem strLt_asymm {s t : String} (h : strLt s t = true) : strLt t s = false :=
  charListLt_asymm h

theorem intLtB_trans : ∀ a b c : Int, intLtB a b = true → intLtB b c = true →
    intLtB a c = true := by
  intro a b c h1 h2
  simp only [intLtB, decide_eq_true_eq] at *
  omega

theorem intLtB_conn : ∀ a b : Int, intLtB a b = false → intLtB b a = false → a = b := by
  intro a b h1 h2
  simp only [intLtB, decide_eq_false_iff_not] at *
  omega

theorem intLtB_asymm : ∀ a b : Int, intLtB a b = true → intLtB b a = false := by
  intro a b h
  simp only [intLtB, decide_eq_true_eq, decide_eq_false_iff_not] at *
  omega

theorem natLtB_trans : ∀ a b c : Nat, natLtB a b = true → natLtB b c = true →
    natLtB a c = true := by
  intro a b c h1 h2
  simp only [natLtB, decide_eq_true_eq] at *
  omega

theorem natLtB_conn : ∀ a b : Nat, natLtB a b = false → natLtB b a = false → a = b := by
  intro a b h1 h2
  simp only [natLtB, decide_eq_false_iff_not] at *
  omega

theorem intLeB_trans : ∀ a b c : Int, intLeB a b = true → intLeB b c = true →
    intLeB a c = true := by
  intro a b c h1 h2
  simp only [intLeB, decide_eq_true_eq] at *
  omega

theorem intLeB_total : ∀ a b : Int, intLeB a b = true ∨ intLeB b a = true := by
  intro a b
  simp only [intLeB, decide_eq_true_eq]
  omega

/-- Transitivity for the inner `(reference_allele, alternate_allele)` comparator. -/
theorem inner2_trans : ∀ p q r : String × String,
    lexLe strLt strLe p q = true → lexLe strLt strLe q r = true →
    lexLe strLt strLe p r = true :=
  lexLe_trans (fun _ _ _ h1 h2 => strLt_trans h1 h2) (fun _ _ h1 h2 => strLt_conn h1 h2)
    (fun _ _ _ h1 h2 => strLe_trans h1 h2)

theorem inner2_total : ∀ p q : String × String,
    lexLe strLt strLe p q = true ∨ lexLe strLt strLe q p = true :=
  lexLe_total (fun _ _ h1 h2 => strLt_conn h1 h2) strLe_total

theorem inner2_antisymm : ∀ p q : String × String,
    lexLe strLt strLe p q = true → lexLe strLt strLe q p = true → p = q :=
  lexLe_antisymm (fun _ _ h => strLt_asymm h) (fun _ _ h1 h2 => strLt_conn h1 h2)
    (fun _ _ h1 h2 => strLe_antisymm h1 h2)

/-- Transitivity for the `(start, reference_allele, alternate_allele)` comparator. -/
theorem inner1_trans : ∀ p q r : Int × String × String,
    lexLe intLtB (lexLe strLt strLe) p q = true →
    lexLe intLtB (lexLe strLt strLe) q r = true →
    lexLe intLtB (lexLe strLt strLe) p r = true :=
  lexLe_trans intLtB_trans intLtB_conn inner2_trans

theorem inner1_total : ∀ p q : Int × String × String,
    lexLe intLtB (lexLe strLt strLe) p q = true ∨
    lexLe intLtB (lexLe strLt strLe) q p = true :=
  lexLe_total intLtB_conn inner2_total

theorem inner1_antisymm : ∀ p q : Int × String × String,
    lexLe intLtB (lexLe strLt strLe) p q = true →
    lexLe intLtB (lexLe strLt strLe) q p = true → p = q :=
  lexLe_antisymm intLtB_asymm intLtB_conn inner2_antisymm

theorem keyLEb_trans (a b c : VKey) (h1 : keyLEb a b = true) (h2 : keyLEb b c = true) :
    keyLEb a c = true :=
  @lexLe_trans String (Int × String × String) strLt (lexLe intLtB (lexLe strLt strLe))
    (fun _ _ _ u v => strLt_trans u v) (fun _ _ u v => strLt_conn u v)
    inner1_trans a b c h1 h2

theorem keyLEb_total (a b : VKey) : keyLEb a b = true ∨ keyLEb b a = true :=
  @lexLe_total String (Int × String × String) strLt (lexLe intLtB (lexLe strLt strLe))
    (fun _ _ u v => strLt_conn u v) inner1_total a b

theorem keyLEb_antisymm (a b : VKey) (h1 : keyLEb a b = true) (h2 : keyLEb b a = true) :
    a = b :=
  @lexLe_antisymm String (Int × String × String) strLt (lexLe intLtB (lexLe strLt strLe))
    (fun _ _ u => strLt_asymm u) (fun _ _ u v => strLt_conn u v)
    inner1_antisymm a b h1 h2

instance : IsTrans VKey keyR := ⟨keyLEb_trans⟩

instance : IsTotal VKey keyR := ⟨keyLEb_total⟩

instance : IsAntisymm VKey keyR := ⟨keyLEb_antisymm⟩

theorem rowLEb_trans (a b c : AggRow) (h1 : rowLEb a b = true) (h2 : rowLEb b c = true) :
    rowLEb a c = true :=
  @lexLe_trans Nat Int natLtB intLeB natLtB_trans natLtB_conn intLeB_trans
    (rowSortKey a) (rowSortKey b) (rowSortKey c) h1 h2

theorem rowLEb_total (a b : AggRow) : rowLEb a b = true ∨ rowLEb b a = true :=
  @lexLe_total Nat Int natLtB intLeB natLtB_conn intLeB_total
    (rowSortKey a) (rowSortKey b)

instance : IsTrans AggRow rowR := ⟨rowLEb_trans⟩

instance : IsTotal AggRow rowR := ⟨rowLEb_total⟩

/-! ### `insertionSort` commutes with `map` when the comparator factors
through the mapped value. -/

theorem map_orderedInsert {α β : Type} (r : α → α → Prop) [DecidableRel r]
    (r' : β → β → Prop) [DecidableRel r'] (f : α → β)
    (hf : ∀ a b, r a b ↔ r' (f a) (f b)) (a : α) :
    ∀ l : List α, (List.orderedInsert r a l).map f =
      List.orderedInsert r' (f a) (l.map f) := by
  intro l
  induction l with
  | nil => rfl
  | cons b bs ih =>
    rw [List.map_cons]
    simp only [List.orderedInsert]
    by_cases h : r a b
    · rw [if_pos h, if_pos ((hf a b).mp h), List.map_cons, List.map_cons]
    · rw [if_neg h, if_neg (fun hc => h ((hf a b).mpr hc)), List.map_cons, ih]

theorem map_insertionSort {α β : Type} (r : α → α → Prop) [DecidableRel r]
    (r' : β → β → Prop) [DecidableRel r'] (f : α → β)
    (hf : ∀ a b, r a b ↔ r' (f a) (f b)) :
    ∀ l : List α, (List.insertionSort r l).map f = List.insertionSort r' (l.map f) := by
  intro l
  induction l with
  | nil => rfl
  | cons a as ih =>
    rw [List.insertionSort, List.map_cons, List.insertionSort,
      map_orderedInsert r r' f hf, ih]

/-! ### The latest-entry selection -/

theorem pickLatest_max (rs : List VariantRecord) :
    ∀ r, ∀ s ∈ r :: rs,
      s.date_last_evaluated ≤ (pickLatest r rs).date_last_evaluated := by
  induction rs with
  | nil =>
    intro r s hs
    rcases List.mem_cons.mp hs with rfl | h
    · exact le_refl _
    · cases h
  | cons t rs ih =>
    intro r s hs
    have step : pickLatest r (t :: rs) =
        pickLatest (if r.date_last_evaluated < t.date_last_evaluated then t else r) rs := rfl
    rw [step]
    rcases List.mem_cons.mp hs with rfl | hs'
    · by_cases h : s.date_last_evaluated < t.date_last_evaluated
      · rw [if_pos h]
        exact le_of_lt (lt_of_lt_of_le h (ih t t (List.mem_cons_self t rs)))
      · rw [if_neg h]
        exact ih s s (List.mem_cons_self s rs)
    · rcases List.mem_cons.mp hs' with rfl | hs''
      · by_cases h : r.date_last_evaluated < s.date_last_evaluated
        · rw [if_pos h]
          exact ih s s (List.mem_cons_self s rs)
        · rw [if_neg h]
          exact le_trans (le_of_not_lt h) (ih r r (List.mem_cons_self r rs))
      · exact ih _ s (List.mem_cons_of_mem _ hs'')

theorem pickLatest_first (rs : List VariantRecord) :
    ∀ r, ∃ g₁ g₂, r :: rs = g₁ ++ pickLatest r rs :: g₂ ∧
      ∀ s ∈ g₁, s.date_last_evaluated < (pickLatest r rs).date_last_evaluated := by
  induction rs with
  | nil =>
    intro r
    exact ⟨[], [], rfl, fun s hs => absurd hs (List.not_mem_nil s)⟩
  | cons t rs ih =>
    intro r
    have step : pickLatest r (t :: rs) =
        pickLatest (if r.date_last_evaluated < t.date_last_evaluated then t else r) rs := rfl
    by_cases h : r.date_last_evaluated < t.date_last_evaluated
    · obtain ⟨g₁, g₂, hdec, hlt⟩ := ih t
      rw [step, if_pos h]
      refine ⟨r :: g₁, g₂, by rw [List.cons_append, ← hdec], ?_⟩
      intro s hs
      rcases List.mem_cons.mp hs with rfl | hs'
      · rw [if_pos h] at step
        exact lt_of_lt_of_le h (pickLatest_max rs t t (List.mem_cons_self t rs))
      · exact hlt s hs'
    · obtain ⟨g₁, g₂, hdec, hlt⟩ := ih r
      rw [step, if_neg h]
      cases g₁ with
      | nil =>
        simp only [List.nil_append] at hdec
        obtain ⟨he, ht⟩ := List.cons.inj hdec
        refine ⟨[], t :: rs, ?_, fun s hs => absurd hs (List.not_mem_nil s)⟩
        rw [List.nil_append, ← he]
      | cons u g₁ =>
        rw [List.cons_append] at hdec
        obtain ⟨he, ht⟩ := List.cons.inj hdec
        refine ⟨r :: t :: g₁, g₂, ?_, ?_⟩
        · rw [List.cons_append, List.cons_append, ← ht]
        · intro s hs
          have hrm : r.date_last_evaluated < (pickLatest r rs).date_last_evaluated := by
            have := hlt u (List.mem_cons_self u g₁)
            rwa [← he] at this
          rcases List.mem_cons.mp hs with rfl | hs'
          · exact hrm
          · rcases List.mem_cons.mp hs' with rfl | hs''
            · exact lt_of_le_of_lt (le_of_not_lt h) hrm
            · exact hlt s (List.mem_cons_of_mem _ hs'')

/-! ### Group membership facts -/

theorem groupKeys_mem {nl : List VariantRecord} {k : VKey} :
    k ∈ groupKeys nl ↔ k ∈ nl.map variantKey := by
  rw [groupKeys, (List.perm_insertionSort keyR _).mem_iff, mem_firstSeenDedup]

theorem pipelineGroups_mem {l : List VariantRecord} {k : VKey} {g : List VariantRecord} :
    (k, g) ∈ pipelineGroups l ↔
      k ∈ groupKeys (l.map normalizeRecord) ∧
      g = (l.map normalizeRecord).filter (fun r => decide (variantKey r = k)) := by
  simp only [pipelineGroups, List.mem_map, Prod.mk.injEq]
  constructor
  · rintro ⟨k', hk', rfl, rfl⟩
    exact ⟨hk', rfl⟩
  · rintro ⟨hk, rfl⟩
    exact ⟨k, hk, rfl, rfl⟩

theorem group_ne_nil {l : List VariantRecord} {k : VKey} {g : List VariantRecord}
    (hmem : (k, g) ∈ pipelineGroups l) : g ≠ [] := by
  obtain ⟨hk, rfl⟩ := pipelineGroups_mem.mp hmem
  rw [groupKeys_mem] at hk
  obtain ⟨r, hr, hrk⟩ := List.mem_map.mp hk
  exact List.ne_nil_of_mem (List.mem_filter.mpr ⟨hr, by rw [hrk]; exact decide_eq_true rfl⟩)

/-- Every record of a group carries the group's key. -/
theorem group_key_eq {l : List VariantRecord} {k : VKey} {g : List VariantRecord}
    (hmem : (k, g) ∈ pipelineGroups l) : ∀ r ∈ g, variantKey r = k := by
  obtain ⟨hk, rfl⟩ := pipelineGroups_mem.mp hmem
  intro r hr
  exact of_decide_eq_true (List.mem_filter.mp hr).2

/-- C1: for every variant group of the pipeline, the record selected by
`get_latest_entry` attains the maximum `date_last_evaluated` of the group,
and it is the first record of the group (groups keep input order) attaining
that maximum: everything before it in the group is strictly older, which
makes the tie-break deterministic in favour of the record encountered first. -/
theorem C1_latest_selection (l : List VariantRecord) (k : VKey) (g : List VariantRecord)
    (hmem : (k, g) ∈ pipelineGroups l) :
    ∃ m, get_latest_entry g = some m ∧
      (∀ s ∈ g, s.date_last_evaluated ≤ m.date_last_evaluated) ∧
      ∃ g₁ g₂, g = g₁ ++ m :: g₂ ∧
        ∀ s ∈ g₁, s.date_last_evaluated < m.date_last_evaluated := by
  have hne : g ≠ [] := group_ne_nil hmem
  obtain ⟨r, rs, rfl⟩ : ∃ r rs, g = r :: rs := by
    cases g with
    | nil => exact absurd rfl hne
    | cons r rs => exact ⟨r, rs, rfl⟩
  exact ⟨pickLatest r rs, rfl, pickLatest_max rs r, pickLatest_first rs r⟩

/-- Witness for C1 at a concrete two-record group with tied dates. -/
theorem C1_latest_selection_witness :
    ∃ m, get_latest_entry [c1recA, c1recB] = some m ∧
      (∀ s ∈ [c1recA, c1recB], s.date_last_evaluated ≤ m.date_last_evaluated) ∧
      ∃ g₁ g₂, [c1recA, c1recB] = g₁ ++ m :: g₂ ∧
        ∀ s ∈ g₁, s.date_last_evaluated < m.date_last_evaluated :=
  C1_latest_selection [c1recA, c1recB] ("7", 100, "A", "T") [c1recA, c1recB] (by decide)

/-! ### Properties of `value_counts` -/

instance : IsTrans (String × Nat) countGE :=
  ⟨fun _ _ _ h1 h2 => le_trans h2 h1⟩

instance : IsTotal (String × Nat) countGE :=
  ⟨fun p q => (le_total q.2 p.2).elim Or.inl Or.inr⟩

theorem value_counts_perm (l : List String) :
    (value_counts l).Perm (countPairs l) :=
  List.perm_insertionSort countGE (countPairs l)

theorem countPairs_map_fst (l : List String) :
    (countPairs l).map Prod.fst = firstSeenDedup l := by
  rw [countPairs, List.map_map]
  exact List.map_id _

theorem value_counts_count {l : List String} {p : String × Nat}
    (hp : p ∈ value_counts l) : p.2 = l.count p.1 := by
  have hm := (value_counts_perm l).mem_iff.mp hp
  rw [countPairs, List.mem_map] at hm
  obtain ⟨c, _, rfl⟩ := hm
  rfl

theorem value_counts_fst_nodup (l : List String) :
    ((value_counts l).map Prod.fst).Nodup :=
  ((value_counts_perm l).map Prod.fst).nodup_iff.mpr
    (by rw [countPairs_map_fst]; exact nodup_firstSeenDedup l)

theorem value_counts_fst_mem (l : List String) (c : String) :
    c ∈ (value_counts l).map Prod.fst ↔ c ∈ l := by
  rw [((value_counts_perm l).map Prod.fst).mem_iff, countPairs_map_fst,
    mem_firstSeenDedup]

theorem value_counts_sorted (l : List String) :
    (value_counts l).Pairwise countGE :=
  List.sorted_insertionSort countGE (countPairs l)

/-- Stability: two distinct labels with the same number of occurrences keep
their first-occurrence order in `value_counts`. -/
theorem value_counts_tie_stable (l : List String) {x y : String}
    (hx : x ∈ l) (hy : y ∈ l) (hxy : x ≠ y) (hc : l.count x = l.count y)
    (hidx : l.indexOf x < l.indexOf y) :
    List.Sublist [(x, l.count x), (y, l.count y)] (value_counts l) := by
  have h1 : List.Sublist [x, y] (firstSeenDedup l) :=
    pair_sublist_fsdAux l [] hx hy (List.not_mem_nil x) (List.not_mem_nil y) hxy hidx
  have h2 : List.Sublist [(x, l.count x), (y, l.count y)] (countPairs l) := by
    have := h1.map (fun c => (c, l.count c))
    simpa [countPairs] using this
  exact List.pair_sublist_insertionSort (by simp [countGE, hc]) h2

theorem value_counts_ne_nil {l : List String} (h : l ≠ []) :
    value_counts l ≠ [] := by
  obtain ⟨a, as, rfl⟩ : ∃ a as, l = a :: as := by
    cases l with
    | nil => exact absurd rfl h
    | cons a as => exact ⟨a, as, rfl⟩
  intro hc
  have := (value_counts_fst_mem (a :: as) a).mpr (List.mem_cons_self a as)
  rw [hc] at this
  simp at this

/-- C2: for a non-empty list of classification labels, the summary string is
the bar-joined rendering of the `value_counts` pairs; these pairs hold one
entry per distinct label with the label's occurrence count, they are ordered
by descending count, and distinct labels with equal counts keep their
first-occurrence order from the input. -/
theorem C2_summary_format (l : List String) (h : l ≠ []) :
    format_total_classifications l =
      String.intercalate "|"
        ((value_counts l).map (fun p => p.1 ++ "(" ++ toString p.2 ++ ")")) ∧
    value_counts l ≠ [] ∧
    ((value_counts l).map Prod.fst).Nodup ∧
    (∀ c, c ∈ (value_counts l).map Prod.fst ↔ c ∈ l) ∧
    (∀ p ∈ value_counts l, p.2 = l.count p.1) ∧
    (value_counts l).Pairwise countGE ∧
    (∀ x y, x ∈ l → y ∈ l → x ≠ y → l.count x = l.count y →
      l.indexOf x < l.indexOf y →
      List.Sublist [(x, l.count x), (y, l.count y)] (value_counts l)) :=
  ⟨rfl, value_counts_ne_nil h, value_counts_fst_nodup l, value_counts_fst_mem l,
    fun _ hp => value_counts_count hp, value_counts_sorted l,
    fun _ _ hx hy hxy hc hidx => value_counts_tie_stable l hx hy hxy hc hidx⟩

/-- Witness for C2 at a concrete label list with a duplicate. -/
theorem C2_summary_format_witness :
    (["VUS", "VUS", "Pathogenic"] : List String) ≠ [] ∧
    ((value_counts ["VUS", "VUS", "Pathogenic"]).map Prod.fst).Nodup :=
  ⟨by decide, (C2_summary_format ["VUS", "VUS", "Pathogenic"] (by decide)).2.2.1⟩

/-! ### Count conservation -/

theorem sum_counts_eq_length (l : List String) :
    ((value_counts l).map Prod.snd).sum = l.length := by
  rw [((value_counts_perm l).map Prod.snd).sum_eq, countPairs, List.map_map]
  simp only [Function.comp_def]
  have hfsd : (firstSeenDedup l).Perm l.dedup :=
    (List.perm_ext_iff_of_nodup (nodup_firstSeenDedup l) (List.nodup_dedup l)).mpr
      (fun a => by rw [mem_firstSeenDedup, List.mem_dedup])
  rw [(hfsd.map _).sum_eq]
  have h2 : l.dedup.toFinset = l.toFinset := by
    ext a
    simp
  have h3 := List.sum_toFinset (fun c => l.count c) (List.nodup_dedup l)
  rw [h2] at h3
  rw [← h3]
  exact List.sum_toFinset_count_eq_length l

/-- C3: for every variant group, the summary string of the aggregated row is
the rendering of the `value_counts` pairs of the group's classifications, and
the counts in those pairs sum to the group's size (the mode that counts the
latest record as well). -/
theorem C3_count_conservation (l : List VariantRecord) (k : VKey)
    (g : List VariantRecord) (hmem : (k, g) ∈ pipelineGroups l) :
    ∃ row, aggregateGroup g = some row ∧
      row.total_classifications =
        String.intercalate "|"
          ((value_counts (g.map (·.oncogenicity_classification))).map
            (fun p => p.1 ++ "(" ++ toString p.2 ++ ")")) ∧
      ((value_counts (g.map (·.oncogenicity_classification))).map Prod.snd).sum
        = g.length := by
  have hne : g ≠ [] := group_ne_nil hmem
  obtain ⟨r, rs, rfl⟩ : ∃ r rs, g = r :: rs := by
    cases g with
    | nil => exact absurd rfl hne
    | cons r rs => exact ⟨r, rs, rfl⟩
  refine ⟨_, rfl, rfl, ?_⟩
  rw [sum_counts_eq_length, List.length_map]

/-- Witness for C3 at a concrete two-record group. -/
theorem C3_count_conservation_witness :
    ∃ row, aggregateGroup [rec7a, rec7bN] = some row ∧
      row.total_classifications =
        String.intercalate "|"
          ((value_counts ([rec7a, rec7bN].map (·.oncogenicity_classification))).map
            (fun p => p.1 ++ "(" ++ toString p.2 ++ ")")) ∧
      ((value_counts ([rec7a, rec7bN].map (·.oncogenicity_classification))).map
        Prod.snd).sum = [rec7a, rec7bN].length :=
  C3_count_conservation [rec7a, rec7b] ("7", 100, "A", "T") [rec7a, rec7bN] (by decide)

/-! ### The worked three-record example -/

/-- C5 counterexample: on the three-record group (VUS, VUS, Pathogenic with
the Pathogenic record latest) the code renders the summary ordered by
descending count, which is not the claimed string. -/
theorem C5_example_counterexample :
    (aggregated_data [c5vus1, c5vus2, c5path]).map (·.latest_classification)
      = ["Pathogenic"] ∧
    (aggregated_data [c5vus1, c5vus2, c5path]).map (·.total_classifications)
      = ["VUS(2)|Pathogenic(1)"] ∧
    "VUS(2)|Pathogenic(1)" ≠ "Pathogenic(1)|VUS(2)" := by
  refine ⟨by decide, by decide, by decide⟩

/-- C5 amended: the summary of the example group renders as
`VUS(2)|Pathogenic(1)` (descending count order). -/
theorem C5_example_amended :
    (aggregated_data [c5vus1, c5vus2, c5path]).map (·.latest_classification)
      = ["Pathogenic"] ∧
    (aggregated_data [c5vus1, c5vus2, c5path]).map (·.total_classifications)
      = ["VUS(2)|Pathogenic(1)"] := by
  refine ⟨by decide, by decide⟩

/-! ### The empty-collection summary -/

/-- C7 counterexample: the formatter applied to the empty collection yields
the empty string, not the VCF missing-value dot. -/
theorem C7_empty_counterexample :
    format_total_classifications [] ≠ "." ∧ format_total_classifications [] = "" := by
  refine ⟨by decide, rfl⟩

/-- C7 amended: the empty collection formats to the empty string (so the
`TC=` INFO value is empty rather than `.`). -/
theorem C7_empty_amended : format_total_classifications [] = "" := rfl

/-! ### Chromosome rank and sortedness of the output -/

theorem idxInList_lt_length {c : String} :
    ∀ {xs : List String} {i : Nat}, idxInList c xs = some i → i < xs.length := by
  intro xs
  induction xs with
  | nil => intro i h; cases h
  | cons x xs ih =>
    intro i h
    by_cases hx : x = c
    · rw [idxInList, if_pos hx] at h
      cases h
      exact Nat.zero_lt_succ _
    · rw [idxInList, if_neg hx] at h
      cases he : idxInList c xs with
      | none => rw [he] at h; cases h
      | some i' =>
        rw [he] at h
        cases h
        exact Nat.succ_lt_succ (ih he)

theorem chromRank?_lt_24 {c : String} {i : Nat} (h : chromRank? c = some i) : i < 24 :=
  idxInList_lt_length h

theorem renderChrom_of_some {c : String} {i : Nat} (h : chromRank? c = some i) :
    renderChrom c = c := by
  unfold renderChrom
  rw [h]

theorem renderChrom_of_none {c : String} (h : chromRank? c = none) :
    renderChrom c = "nan" := by
  unfold renderChrom
  rw [h]

theorem chromRank?_nan : chromRank? "nan" = none := by decide

theorem chromRank_of_some {c : String} {i : Nat} (h : chromRank? c = some i) :
    chromRank c = i := by
  rw [chromRank, h]
  rfl

theorem chromRank_of_none {c : String} (h : chromRank? c = none) :
    chromRank c = 24 := by
  rw [chromRank, h]
  rfl

theorem chromRank_eq_of_renderChrom_eq {c d : String}
    (h : renderChrom c = renderChrom d) : chromRank c = chromRank d := by
  cases h1 : chromRank? c with
  | some i =>
    cases h2 : chromRank? d with
    | some j =>
      rw [renderChrom_of_some h1, renderChrom_of_some h2] at h
      rw [h] at h1
      rw [h1] at h2
      cases h2
      rw [chromRank_of_some h1, chromRank_of_some (h ▸ h1)]
    | none =>
      rw [renderChrom_of_some h1, renderChrom_of_none h2] at h
      rw [h, chromRank?_nan] at h1
      cases h1
  | none =>
    cases h2 : chromRank? d with
    | some j =>
      rw [renderChrom_of_none h1, renderChrom_of_some h2] at h
      rw [← h, chromRank?_nan] at h2
      cases h2
    | none =>
      rw [chromRank_of_none h1, chromRank_of_none h2]

/-- Unfolding the row comparator: either the chromosome rank strictly
decreases, or the ranks agree and the starts are ordered. -/
theorem rowLEb_cases {a b : AggRow} (h : rowLEb a b = true) :
    chromRank a.chromosome < chromRank b.chromosome ∨
    (chromRank a.chromosome = chromRank b.chromosome ∧ a.start ≤ b.start) := by
  simp only [rowLEb, lexLe, rowSortKey, natLtB, intLeB] at h
  by_cases h1 : chromRank a.chromosome < chromRank b.chromosome
  · exact Or.inl h1
  · rw [if_neg (by simpa using h1)] at h
    by_cases h2 : chromRank b.chromosome < chromRank a.chromosome
    · rw [if_pos (by simpa using h2)] at h
      exact absurd h (by simp)
    · rw [if_neg (by simpa using h2)] at h
      exact Or.inr ⟨by omega, by simpa using h⟩

/-- C6: the body rows of the written VCF are sorted: chromosome category
codes (positions in the fixed order 1..22, X, Y) never decrease, and rows
whose printed chromosome is the same have non-decreasing start positions. -/
theorem C6_body_rows_sorted (l : List VariantRecord) :
    (vcfRows l).Pairwise (fun a b =>
      (∀ i j, chromRank? a.chromosome = some i → chromRank? b.chromosome = some j →
        i ≤ j) ∧
      (renderChrom a.chromosome = renderChrom b.chromosome → a.start ≤ b.start)) := by
  have hs : (vcfRows l).Pairwise rowR :=
    List.sorted_insertionSort rowR (aggregated_data l)
  refine hs.imp ?_
  intro a b hab
  rcases rowLEb_cases hab with hlt | ⟨heq, hle⟩
  · constructor
    · intro i j hi hj
      rw [chromRank_of_some hi, chromRank_of_some hj] at hlt
      omega
    · intro hrc
      have := chromRank_eq_of_renderChrom_eq hrc
      omega
  · constructor
    · intro i j hi hj
      rw [chromRank_of_some hi, chromRank_of_some hj] at heq
      omega
    · intro _
      exact hle

/-! ### HGVS aggregation -/

/-- C8 amended: for every variant group, the aggregated HGVS value is the
group's non-missing `hgvsc` values, deduplicated in first-seen order and
joined by bars; a group with no non-missing `hgvsc` gets the empty string
(the `HGVS=` key is still emitted, with an empty value, rather than being
omitted or set to a dot). -/
theorem C8_hgvs_aggregation (l : List VariantRecord) (k : VKey)
    (g : List VariantRecord) (hmem : (k, g) ∈ pipelineGroups l) :
    ∃ row, aggregateGroup g = some row ∧
      row.hgvs = String.intercalate "|" (firstSeenDedup (g.filterMap (·.hgvsc))) ∧
      (g.filterMap (·.hgvsc) = [] → row.hgvs = "") := by
  have hne : g ≠ [] := group_ne_nil hmem
  obtain ⟨r0, rs0, rfl⟩ : ∃ r0 rs0, g = r0 :: rs0 := by
    cases g with
    | nil => exact absurd rfl hne
    | cons r0 rs0 => exact ⟨r0, rs0, rfl⟩
  have heq : aggregate_hgvs ((r0 :: rs0).map (·.hgvsc)) =
      String.intercalate "|" (firstSeenDedup ((r0 :: rs0).filterMap (·.hgvsc))) := by
    rw [aggregate_hgvs, List.filterMap_map]
    simp only [Function.comp_def, id_eq]
  refine ⟨_, rfl, heq, fun hempty => ?_⟩
  show aggregate_hgvs ((r0 :: rs0).map (·.hgvsc)) = ""
  rw [heq, hempty]
  rfl

/-- Witness for C8 at a concrete one-record group with a missing `hgvsc`. -/
theorem C8_hgvs_aggregation_witness :
    ∃ row, aggregateGroup [c8rec] = some row ∧
      row.hgvs = String.intercalate "|" (firstSeenDedup ([c8rec].filterMap (·.hgvsc))) ∧
      ([c8rec].filterMap (·.hgvsc) = [] → row.hgvs = "") :=
  C8_hgvs_aggregation [c8rec] ("3", 7, "T", "G") [c8rec] (by decide)

/-- C8 counterexample: a group whose records all lack `hgvsc` still gets an
`HGVS=` key in the INFO field, with an empty value rather than a dot. -/
theorem C8_hgvs_counterexample :
    (aggregated_data [c8rec]).map (·.hgvs) = [""] ∧
    (aggregated_data [c8rec]).map info_field = ["LC=VUS;LCD=4;LCS=Q1;TC=VUS(1);HGVS="] ∧
    "" ≠ "." := by
  refine ⟨by decide, by decide, by decide⟩

/-! ### The ID column -/

/-- C9 amended: the ID column (third tab-separated column) of every body row
of the written VCF is the literal dot, whatever data is available. -/
theorem C9_id_always_dot (l : List VariantRecord) :
    ∀ row ∈ vcfRows l, (bodyCols row)[2]? = some "." := by
  intro row _
  rfl

/-- Witness for C9 at the single row produced for `rec7a`. -/
theorem C9_id_always_dot_witness :
    (bodyCols ⟨"7", 100, "A", "T", "VUS", 5, "S1", "VUS(1)", "NM_1:c.1A>T"⟩)[2]?
      = some "." :=
  C9_id_always_dot [rec7a]
    ⟨"7", 100, "A", "T", "VUS", 5, "S1", "VUS(1)", "NM_1:c.1A>T"⟩ (by decide)

/-- C9 counterexample: a record with an available HGVS value still gets a dot
in the ID column. -/
theorem C9_id_counterexample :
    (vcfRows [rec7a]).map (fun row => (bodyCols row)[2]?) = [some "."] ∧
    (vcfRows [rec7a]).map (·.hgvs) = ["NM_1:c.1A>T"] ∧
    "NM_1:c.1A>T" ≠ "." := by
  refine ⟨by decide, by decide, by decide⟩

/-! ### Out-of-order chromosomes -/

theorem pickLatest_mem (r : VariantRecord) (rs : List VariantRecord) :
    pickLatest r rs ∈ r :: rs := by
  obtain ⟨g₁, g₂, hdec, _⟩ := pickLatest_first rs r
  rw [hdec]
  exact List.mem_append_right g₁ (List.mem_cons_self _ _)

/-- C10: a record whose normalized chromosome is not one of `1..22, X, Y`
still produces an output row: its variant key columns survive, its printed
CHROM column is the string `nan`, and the row is placed after every row whose
chromosome is in the categorical set. -/
theorem C10_unknown_chromosome (l : List VariantRecord) (r : VariantRecord)
    (hr : r ∈ l) (hno : chromRank? (normalizeRecord r).chromosome = none) :
    ∃ i row, (vcfRows l)[i]? = some row ∧
      rowKeyCols row = variantKey (normalizeRecord r) ∧
      renderChrom row.chromosome = "nan" ∧
      (bodyCols row).head? = some "nan" ∧
      ∀ (j : Nat) (rowJ : AggRow), (vcfRows l)[j]? = some rowJ →
        chromRank? rowJ.chromosome ≠ none → j < i := by
  have hk : variantKey (normalizeRecord r) ∈ groupKeys (l.map normalizeRecord) :=
    groupKeys_mem.mpr
      (List.mem_map_of_mem variantKey (List.mem_map_of_mem normalizeRecord hr))
  have hmem : (variantKey (normalizeRecord r),
      (l.map normalizeRecord).filter
        (fun s => decide (variantKey s = variantKey (normalizeRecord r))))
      ∈ pipelineGroups l :=
    pipelineGroups_mem.mpr ⟨hk, rfl⟩
  set g := (l.map normalizeRecord).filter
    (fun s => decide (variantKey s = variantKey (normalizeRecord r))) with hgdef
  have hne : g ≠ [] := group_ne_nil hmem
  obtain ⟨r0, rs0, hg⟩ : ∃ r0 rs0, g = r0 :: rs0 := by
    cases hgc : g with
    | nil => exact absurd hgc hne
    | cons r0 rs0 => exact ⟨r0, rs0, rfl⟩
  have hrow : ∃ row, aggregateGroup g = some row ∧
      rowKeyCols row = variantKey (pickLatest r0 rs0) := by
    rw [hg]
    exact ⟨_, rfl, rfl⟩
  obtain ⟨row, hroweq, hrowkey⟩ := hrow
  have hmg : pickLatest r0 rs0 ∈ g := by
    rw [hg]
    exact pickLatest_mem r0 rs0
  have hrowk : rowKeyCols row = variantKey (normalizeRecord r) := by
    rw [hrowkey, group_key_eq hmem _ hmg]
  have hrchrom : row.chromosome = (normalizeRecord r).chromosome :=
    congrArg Prod.fst hrowk
  have hrnone : chromRank? row.chromosome = none := by
    rw [hrchrom]
    exact hno
  have hmema : row ∈ aggregated_data l :=
    List.mem_filterMap.mpr ⟨(variantKey (normalizeRecord r), g), hmem, hroweq⟩
  have hmemv : row ∈ vcfRows l :=
    (List.perm_insertionSort rowR (aggregated_data l)).mem_iff.mpr hmema
  obtain ⟨i, hi⟩ := List.mem_iff_getElem?.mp hmemv
  have hp : (vcfRows l).Pairwise rowR :=
    List.sorted_insertionSort rowR (aggregated_data l)
  refine ⟨i, row, hi, hrowk, renderChrom_of_none hrnone, ?_, ?_⟩
  · simp [bodyCols, renderChrom_of_none hrnone]
  · intro j rowJ hj hsomeJ
    by_contra hji
    obtain ⟨hileni, hieq⟩ := List.getElem?_eq_some_iff.mp hi
    obtain ⟨hjlen, hjeq⟩ := List.getElem?_eq_some_iff.mp hj
    rcases Nat.lt_or_ge i j with hij | hij
    · have hR := List.pairwise_iff_getElem.mp hp i j hileni hjlen hij
      rw [hieq, hjeq] at hR
      cases hj2 : chromRank? rowJ.chromosome with
      | none => exact hsomeJ hj2
      | some jr =>
        have hjlt : jr < 24 := chromRank?_lt_24 hj2
        rcases rowLEb_cases hR with hlt | ⟨heq2, _⟩
        · rw [chromRank_of_none hrnone, chromRank_of_some hj2] at hlt
          omega
        · rw [chromRank_of_none hrnone, chromRank_of_some hj2] at heq2
          omega
    · have : i = j := by omega
      subst this
      rw [hieq] at hjeq
      rw [← hjeq] at hsomeJ
      exact hsomeJ hrnone

/-- Witness for C10: an input holding a record on chromosome `MT` (not a
category) together with one on chromosome `1`. -/
theorem C10_unknown_chromosome_witness :
    ∃ i row, (vcfRows [recMT, rec1])[i]? = some row ∧
      rowKeyCols row = variantKey (normalizeRecord recMT) ∧
      renderChrom row.chromosome = "nan" ∧
      (bodyCols row).head? = some "nan" ∧
      ∀ (j : Nat) (rowJ : AggRow), (vcfRows [recMT, rec1])[j]? = some rowJ →
        chromRank? rowJ.chromosome ≠ none → j < i :=
  C10_unknown_chromosome [recMT, rec1] recMT (by decide) (by decide)

/-! ### Behaviour under permutation of the input rows -/

theorem groupKeys_perm_eq {l₁ l₂ : List VariantRecord} (h : l₁.Perm l₂) :
    groupKeys (l₁.map normalizeRecord) = groupKeys (l₂.map normalizeRecord) := by
  have hperm : (firstSeenDedup ((l₁.map normalizeRecord).map variantKey)).Perm
      (firstSeenDedup ((l₂.map normalizeRecord).map variantKey)) := by
    refine (List.perm_ext_iff_of_nodup (nodup_firstSeenDedup _)
      (nodup_firstSeenDedup _)).mpr ?_
    intro a
    rw [mem_firstSeenDedup, mem_firstSeenDedup]
    exact ((h.map normalizeRecord).map variantKey).mem_iff
  exact List.eq_of_perm_of_sorted
    ((List.perm_insertionSort keyR _).trans
      (hperm.trans (List.perm_insertionSort keyR _).symm))
    (List.sorted_insertionSort keyR _) (List.sorted_insertionSort keyR _)

/-- Each group key of the pipeline yields an aggregated row carrying exactly
that key in its variant-identifying columns. -/
theorem aggregateGroup_keyCols {l : List VariantRecord} {k : VKey}
    (hk : k ∈ groupKeys (l.map normalizeRecord)) :
    ∃ row, aggregateGroup ((l.map normalizeRecord).filter
      (fun s => decide (variantKey s = k))) = some row ∧ rowKeyCols row = k := by
  have hmem : (k, (l.map normalizeRecord).filter
      (fun s => decide (variantKey s = k))) ∈ pipelineGroups l :=
    pipelineGroups_mem.mpr ⟨hk, rfl⟩
  have hne := group_ne_nil hmem
  set g := (l.map normalizeRecord).filter (fun s => decide (variantKey s = k)) with hgdef
  obtain ⟨r0, rs0, hg⟩ : ∃ r0 rs0, g = r0 :: rs0 := by
    cases hgc : g with
    | nil => exact absurd hgc hne
    | cons r0 rs0 => exact ⟨r0, rs0, rfl⟩
  have hrow : ∃ row, aggregateGroup g = some row ∧
      rowKeyCols row = variantKey (pickLatest r0 rs0) := by
    rw [hg]
    exact ⟨_, rfl, rfl⟩
  obtain ⟨row, hroweq, hrowkey⟩ := hrow
  have hmg : pickLatest r0 rs0 ∈ g := by
    rw [hg]
    exact pickLatest_mem r0 rs0
  exact ⟨row, hroweq, by rw [hrowkey, group_key_eq hmem _ hmg]⟩

theorem filterMap_map_keyCols (f : VKey → Option AggRow) :
    ∀ ks : List VKey, (∀ k ∈ ks, ∃ row, f k = some row ∧ rowKeyCols row = k) →
      (ks.filterMap f).map rowKeyCols = ks := by
  intro ks
  induction ks with
  | nil => intro _; rfl
  | cons k ks ih =>
    intro h
    obtain ⟨row, hrow, hkey⟩ := h k (List.mem_cons_self k ks)
    rw [List.filterMap_cons, hrow, List.map_cons, hkey,
      ih (fun k' hk' => h k' (List.mem_cons_of_mem _ hk'))]

/-- The variant-identifying columns of the aggregated rows are exactly the
sorted group keys. -/
theorem aggregated_data_keyCols (l : List VariantRecord) :
    (aggregated_data l).map rowKeyCols = groupKeys (l.map normalizeRecord) := by
  simp only [aggregated_data, pipelineGroups, List.filterMap_map, Function.comp_def]
  exact filterMap_map_keyCols _ (groupKeys (l.map normalizeRecord))
    (fun k hk => aggregateGroup_keyCols hk)

theorem vcfRows_keyCols (l : List VariantRecord) :
    (vcfRows l).map rowKeyCols =
      List.insertionSort keyColsR ((aggregated_data l).map rowKeyCols) :=
  map_insertionSort rowR keyColsR rowKeyCols (fun _ _ => Iff.rfl) (aggregated_data l)

/-- C4 amended: permuting the input rows leaves the sequence of
variant-identifying columns (chromosome, start, reference, alternate) of the
output rows byte-identical; the full output need not be identical (see the
counterexample), since latest-record tie-breaks, HGVS order and count tie
order follow the input order. -/
theorem C4_perm_keyCols (l₁ l₂ : List VariantRecord) (h : l₁.Perm l₂) :
    (vcfRows l₁).map rowKeyCols = (vcfRows l₂).map rowKeyCols := by
  rw [vcfRows_keyCols, vcfRows_keyCols, aggregated_data_keyCols,
    aggregated_data_keyCols, groupKeys_perm_eq h]

/-- C4 counterexample: swapping two records that share the variant key and
the (maximal) date changes which specimen is reported latest, so the two
outputs differ as byte strings. -/
theorem C4_permutation_counterexample :
    ([c4a, c4b].Perm [c4b, c4a]) ∧ vcfOutput [c4a, c4b] ≠ vcfOutput [c4b, c4a] := by
  refine ⟨by decide, by decide⟩

/-- Witness for the amended C4 at the counterexample pair of inputs. -/
theorem C4_perm_keyCols_witness :
    (vcfRows [c4a, c4b]).map rowKeyCols = (vcfRows [c4b, c4a]).map rowKeyCols :=
  C4_perm_keyCols [c4a, c4b] [c4b, c4a] (by decide)

end IncaVcf
